import Mathlib

/-!
Verification of the argument-expansion engine of src/expand.cpp against its
specification.  The C++ is shallowly embedded: strings over the internal
marker alphabet become lists of `Xchar`, fallible routines return `Except`
or `Option`, and external collaborators (environment store, subshell
executor, tokenizer helpers, filesystem matcher) are passed in as explicit
function parameters.
-/

set_option maxRecDepth 4000

/-- The internal marker alphabet of the expansion engine: ordinary wide
characters plus the reserved sentinel code points that unescape substitutes
for user syntax (expand.h).  The engine treats the sentinels as opaque tags,
so an inductive sum is a faithful rendering of the code-point encoding. -/
inductive Xchar where
  | lit (c : Char)
  | internalSeparator
  | variableExpand
  | variableExpandSingle
  | variableExpandEmpty
  | processExpand
  | homeDirectory
  | bracketBegin
  | bracketEnd
  | bracketSep
  | anyChar
  | anyString
  | anyStringRecursive
deriving DecidableEq

/-- Embed an ordinary string as a marker string of literal characters. -/
def lits (s : String) : List Xchar := s.toList.map Xchar.lit

/-- The characters of the `UNCLEAN_FIRST` constant (expand.cpp line 82):
characters that make a string unclean when they are its first character. -/
def UNCLEAN_FIRST : List Char := ['~', '%']

/-- The characters of the `UNCLEAN` constant (expand.cpp line 84):
characters that make a string unclean in any position. -/
def UNCLEAN : List Char := ['$', '*', '?', '\\', '\"', '\'', '\x28', '\x7b', '\x7d', '\x29']

/-- Whether a marker-string character counts as unclean (a literal character
listed in `UNCLEAN`; sentinel markers are distinct code points and never match). -/
def uncleanChar (c : Xchar) : Bool :=
  match c with
  | .lit ch => UNCLEAN.contains ch
  | _ => false

/-- `expand_is_clean` (expand.cpp lines 95-103): a string is clean when it is
empty, or its first character is not in `UNCLEAN_FIRST` and no character is in
`UNCLEAN`. -/
def expand_is_clean (s : List Xchar) : Bool :=
  match s with
  | [] => true
  | c :: _ =>
    (match c with
     | .lit ch => !UNCLEAN_FIRST.contains ch
     | _ => true) && !(s.any uncleanChar)

/-- `expand_error_t` (expand.h): the status codes of the expansion pipeline. -/
inductive ExpandResultCode where
  | ok
  | error
  | wildcardMatch
  | wildcardNoMatch
deriving DecidableEq

/-- `completion_t` as the expansion engine uses it: a produced string together
with its completion-flag bits (`COMPLETE_REPLACES_TOKEN` and friends); the
engine appends completions with flag value 0. -/
structure Completion where
  completion : List Xchar
  flags : Nat
deriving DecidableEq

/-- `expand_flags_t` (expand.h): the flag set recognized by the pipeline. -/
structure ExpandFlags where
  forCompletions : Bool
  skipCmdsubst : Bool
  skipVariables : Bool
  skipWildcards : Bool
  skipHomeDirectories : Bool
  skipJobs : Bool
  executablesOnly : Bool
  specialForCd : Bool
  specialForCommand : Bool
  noDescriptions : Bool
deriving DecidableEq

/-- A pipeline stage as the driver sees it (expand.cpp lines 1292-1295): a
function from one candidate string to a status code and the completions it
appends to the output list. -/
def Stage : Type := List Xchar → ExpandResultCode × List Completion

/-- The driver's status-aggregation step (expand.cpp lines 1480-1484): the
stage result replaces the running result unless the stage returned
`WILDCARD_NO_MATCH` while the running result is `WILDCARD_MATCH`. -/
def update_total_result (total this : ExpandResultCode) : ExpandResultCode :=
  if this = .wildcardNoMatch ∧ total = .wildcardMatch then total else this

/-- The driver's inner loop (expand.cpp lines 1476-1485): apply one stage to
each completion in turn, stopping as soon as the running result is `ERROR`,
accumulating the appended output. -/
def run_stage_comps (stage : Stage) : List Completion → ExpandResultCode → List Completion → ExpandResultCode × List Completion
  | [], total, acc => (total, acc)
  | c :: rest, total, acc =>
    if total = .error then (total, acc)
    else
      let r := stage c.completion
      run_stage_comps stage rest (update_total_result total r.1) (acc ++ r.2)

/-- The driver's outer loop (expand.cpp lines 1474-1490): run the stages in
order over the working list, swapping output into input between stages, and
stop once the running result is `ERROR`. -/
def run_stages : List Stage → List Completion → ExpandResultCode → ExpandResultCode × List Completion
  | [], comps, total => (total, comps)
  | s :: rest, comps, total =>
    if total = .error then (total, comps)
    else
      let t := run_stage_comps s comps total []
      run_stages rest t.2 t.1

/-- `expand_string` (expand.cpp lines 1456-1500), with the stage array and the
tilde-unexpansion pass (`unexpand_tildes`, which reads the environment) passed
in as parameters.  On the fast path a clean non-completion input is appended
unchanged; on error nothing is appended to the caller's output list. -/
def expand_string_model (stages : List Stage) (unexpand : List Xchar → List Completion → List Completion)
    (flags : ExpandFlags) (input : List Xchar) : ExpandResultCode × List Completion :=
  if !flags.forCompletions && expand_is_clean input then (.ok, [⟨input, 0⟩])
  else
    let t := run_stages stages [⟨input, 0⟩] .ok
    if t.1 ≠ .error then
      (t.1, if !flags.skipHomeDirectories then unexpand input t.2 else t.2)
    else (t.1, [])

instance exceptDecEq {ε α : Type} [DecidableEq ε] [DecidableEq α] : DecidableEq (Except ε α) := fun a b =>
  match a, b with
  | .error e, .error f =>
    if h : e = f then isTrue (by rw [h]) else isFalse (fun hh => by cases hh; exact h rfl)
  | .error _, .ok _ => isFalse (fun hh => by cases hh)
  | .ok _, .error _ => isFalse (fun hh => by cases hh)
  | .ok x, .ok y =>
    if h : x = y then isTrue (by rw [h]) else isFalse (fun hh => by cases hh; exact h rfl)

/-- Skip characters satisfying `iswspace` or equal to `INTERNAL_SEPARATOR`
(the loop head of `parse_slice`, expand.cpp line 637). -/
def skipSpaceSep : List Xchar → List Xchar
  | [] => []
  | c :: rest =>
    if (match c with
        | .lit ch => ch.isWhitespace
        | .internalSeparator => true
        | _ => false) then skipSpaceSep rest else c :: rest

/-- Skip `INTERNAL_SEPARATOR` characters only (expand.cpp lines 655 and 658). -/
def skipSep : List Xchar → List Xchar
  | .internalSeparator :: rest => skipSep rest
  | l => l

/-- Skip leading whitespace, as `wcstol` does before the number. -/
def skipSpace : List Xchar → List Xchar
  | [] => []
  | c :: rest =>
    if (match c with
        | .lit ch => ch.isWhitespace
        | _ => false) then skipSpace rest else c :: rest

/-- Take the maximal run of leading literal decimal digits, returning the
digits and the remainder. -/
def takeDigits : List Xchar → List Char × List Xchar
  | .lit c :: rest =>
    if c.isDigit then
      let p := takeDigits rest
      (c :: p.1, p.2)
    else ([], .lit c :: rest)
  | l => ([], l)

/-- Numeric value of a digit run. -/
def digitsToNat (ds : List Char) : Nat :=
  ds.foldl (fun a c => a * 10 + (c.toNat - 48)) 0

/-- `fish_wcstol` as `parse_slice` uses it: base-10 `wcstol` semantics — skip
leading whitespace, an optional sign, then at least one digit; `none` models
the `errno > 0` (no conversion) case that `parse_slice` treats as a bad
index.  Returns the parsed value and the unconsumed remainder. -/
def fish_wcstol (l : List Xchar) : Option (Int × List Xchar) :=
  let l1 := skipSpace l
  match l1 with
  | .lit '-' :: rest =>
    let p := takeDigits rest
    if p.1 = [] then none else some (-(digitsToNat p.1 : Int), p.2)
  | .lit '+' :: rest =>
    let p := takeDigits rest
    if p.1 = [] then none else some ((digitsToNat p.1 : Int), p.2)
  | _ =>
    let p := takeDigits l1
    if p.1 = [] then none else some ((digitsToNat p.1 : Int), p.2)

/-- Conversion of a parsed slice index (expand.cpp lines 653 and 669):
a value greater than −1 stands as is, otherwise it is counted from the end
as `size + tmp + 1`. -/
def slice_index (size tmp : Int) : Int :=
  if tmp > -1 then tmp else size + tmp + 1

/-- The emission loop of a range token (expand.cpp line 679):
`for (jjj = i1; jjj*direction <= i2*direction; jjj += direction)`.
The fuel argument bounds the iteration count; callers pass enough fuel for
the loop to run to its natural stop. -/
def rangeLoop (i2 dir : Int) : Nat → Int → List Int
  | 0, _ => []
  | fuel + 1, j =>
    if j * dir ≤ i2 * dir then j :: rangeLoop i2 dir fuel (j + dir) else []

/-- The indices a single range token `i1..i2` contributes (expand.cpp lines
670-684), both endpoints already converted by `slice_index`: skip the range
when both endpoints exceed the array size, otherwise clamp each endpoint to
the size and walk inclusively in the inferred direction. -/
def slice_range_indices (size i1 i2 : Int) : List Int :=
  if i1 > size ∧ i2 > size then []
  else
    let i1c := if i1 < size then i1 else size
    let i2c := if i2 < size then i2 else size
    let dir : Int := if i2c < i1c then -1 else 1
    rangeLoop i2c dir ((i2c - i1c).natAbs + 1) i1c

/-- The token loop of `parse_slice` (expand.cpp lines 636-690), processing the
text after the opening `[`.  Errors carry the unconsumed remainder at the bad
token (from which the caller recovers the bad position); success carries the
collected indices and the remainder after the closing `]`. -/
def parse_slice_loop (size : Int) : Nat → List Xchar → Except (List Xchar) (List Int × List Xchar)
  | 0, l => .error l
  | fuel + 1, l =>
    let l1 := skipSpaceSep l
    match l1 with
    | .lit ']' :: rest => .ok ([], rest)
    | _ =>
      match fish_wcstol l1 with
      | none => .error l1
      | some (tmp, rest1) =>
        let i1 := slice_index size tmp
        let rest2 := skipSep rest1
        match rest2 with
        | .lit '.' :: .lit '.' :: rest3a =>
          let rest3 := skipSep rest3a
          match fish_wcstol rest3 with
          | none => .error rest3
          | some (tmp1, rest4) =>
            let i2 := slice_index size tmp1
            match parse_slice_loop size fuel rest4 with
            | .error e => .error e
            | .ok (idxs, fin) => .ok (slice_range_indices size i1 i2 ++ idxs, fin)
        | _ =>
          match parse_slice_loop size fuel rest2 with
          | .error e => .error e
          | .ok (idxs, fin) => .ok (i1 :: idxs, fin)

/-- `parse_slice` (expand.cpp lines 631-697).  The input starts with `[`.
On success, returns the index list and the position just past the closing
`]` (the offset the code returns through `end_ptr`); on failure, the position
of the bad token (the nonzero return value of the C function). -/
def parse_slice (inp : List Xchar) (array_size : Nat) : Except Nat (List Int × Nat) :=
  match parse_slice_loop (array_size : Int) (inp.length + 1) (inp.drop 1) with
  | .error rest => .error (inp.length - rest.length)
  | .ok (idxs, rest) => .ok (idxs, inp.length - rest.length)

example : parse_slice (lits "[9..10]") 3 = .ok ([], 7) := by decide
example : parse_slice (lits "[1..10]") 3 = .ok ([1, 2, 3], 7) := by decide
example : parse_slice (lits "[-1]") 3 = .ok ([3], 4) := by decide
example : parse_slice (lits "[2..1]") 3 = .ok ([2, 1], 6) := by decide
example : parse_slice (lits "[x]") 3 = .error 1 := by decide

/-- `valid_var_name_char` (common.cpp, external to this file): alphanumeric or
underscore.  Sentinel markers are never valid name characters. -/
def valid_var_name_char_x (c : Xchar) : Bool :=
  match c with
  | .lit ch => ch.isAlphanum || ch = '_'
  | _ => false

/-- The variable-name scan of `expand_variables` (expand.cpp lines 743-752):
starting after the marker, a `VARIABLE_EXPAND_EMPTY` consumes one position and
ends the name; otherwise valid name characters are consumed until the first
invalid one.  Returns the length of the name. -/
def scan_var_name : List Xchar → Nat
  | [] => 0
  | c :: rest =>
    if c = .variableExpandEmpty then 1
    else if valid_var_name_char_x c then 1 + scan_var_name rest
    else 0

/-- The variable name found after the marker at index `v` (expand.cpp line 766). -/
def var_name_of (instr : List Xchar) (v : Nat) : List Xchar :=
  (instr.drop (v + 1)).take (scan_var_name (instr.drop (v + 1)))

/-- `var_name_stop`: the index one past the variable name (expand.cpp line 743). -/
def name_stop_of (instr : List Xchar) (v : Nat) : Nat :=
  v + 1 + scan_var_name (instr.drop (v + 1))

/-- The backward search for the last `VARIABLE_EXPAND` or
`VARIABLE_EXPAND_SINGLE` below `last_idx` (expand.cpp lines 726-734).
Returns the index and whether the marker is the single variant. -/
def findLastVarExpand (instr : List Xchar) : Nat → Option (Nat × Bool)
  | 0 => none
  | k + 1 =>
    match instr.get? k with
    | some .variableExpand => some (k, false)
    | some .variableExpandSingle => some (k, true)
    | _ => findLastVarExpand instr k

/-- The slice-respecting selection of variable values (expand.cpp lines
850-860): 1-based indices, out-of-bounds indices silently skipped. -/
def select_var_items (all : List (List Char)) (idxs : List Int) : List (List Char) :=
  idxs.filterMap (fun i =>
    if 1 ≤ i ∧ i ≤ (all.length : Int) then all.get? (i - 1).toNat else none)

/-- Modelled from the spec: `history_t::items_at_indexes` (history.cpp is not
part of this file) maps each requested index to an item, with missing entries
for out-of-bounds indices, which the caller skips (expand.cpp lines 839-848).
The history store is modelled as the 1-based list of its items. -/
def history_items_at (h : List (List Char)) (idxs : List Int) : List (List Char) :=
  idxs.filterMap (fun i =>
    if 1 ≤ i ∧ i ≤ (h.length : Int) then h.get? (i - 1).toNat else none)

/-- Join the selected values with single spaces (expand.cpp lines 876-881):
append every item followed by a space, then remove the trailing space. -/
def join_with_space (items : List (List Char)) : List Xchar :=
  if items = [] then []
  else ((items.map (fun it => it.map Xchar.lit ++ [Xchar.lit ' '])).flatten).dropLast

/-- The slice step of `expand_variables` (expand.cpp lines 789-808): when a
`[` follows the name, run `parse_slice` against the effective value count and
fail on a bad index; otherwise there is no slice.  Returns the parsed index
list (or `none` for all values) and `var_name_and_slice_stop`. -/
def slice_info (instr : List Xchar) (nameStop : Nat) (count : Nat) : Except Unit (Option (List Int) × Nat) :=
  if (instr.drop nameStop).head? = some (Xchar.lit '[') then
    match parse_slice (instr.drop nameStop) count with
    | .error _ => .error ()
    | .ok (idxs, consumed) => .ok (some idxs, nameStop + consumed)
  else .ok (none, nameStop)

/-- The replacement string built for a missing variable under single
expansion (expand.cpp lines 816-823): the prefix before the marker, a
`VARIABLE_EXPAND_EMPTY` only when that prefix ends in
`VARIABLE_EXPAND_SINGLE`, then the text after the name and slice. -/
def missing_single_res (instr : List Xchar) (v stop2 : Nat) : List Xchar :=
  let res0 := instr.take v
  (if res0 ≠ [] ∧ res0.getLast? = some Xchar.variableExpandSingle
   then res0 ++ [Xchar.variableExpandEmpty] else res0) ++ instr.drop stop2

/-- The replacement string built for a present variable under single
expansion (expand.cpp lines 863-883). -/
def single_res (instr : List Xchar) (v stop2 : Nat) (items : List (List Char)) : List Xchar :=
  let res0 := instr.take v
  let res1 :=
    if res0 = [] then res0
    else if res0.getLast? ≠ some Xchar.variableExpandSingle then res0 ++ [Xchar.internalSeparator]
    else if items = [] ∨ items.head?.getD [] = [] then res0 ++ [Xchar.variableExpandEmpty]
    else res0
  res1 ++ join_with_space items ++ instr.drop stop2

/-- The candidate built for one value in the cartesian-product loop of normal
expansion (expand.cpp lines 891-900). -/
def product_item_res (instr : List Xchar) (v stop2 : Nat) (item : List Char) : List Xchar :=
  let n0 := instr.take v
  let n1 :=
    if n0 = [] then n0
    else if n0.getLast? ≠ some Xchar.variableExpand then n0 ++ [Xchar.internalSeparator]
    else if item = [] then n0 ++ [Xchar.variableExpandEmpty]
    else n0
  n1 ++ item.map Xchar.lit ++ instr.drop stop2

/-- The error channel of the expansion routines: a syntax error or a
command-substitution error appended to the caller's `parse_error_list_t`. -/
inductive ExpandError where
  | syntaxErr
  | cmdsubstErr
deriving DecidableEq

/-- What one step of `expand_variables` decides to do next: emit a finished
output list, or recurse on each of a list of rewritten strings. -/
inductive EvNext where
  | finished (out : List (List Xchar))
  | recurse (nexts : List (List Xchar))
deriving DecidableEq

/-- One step of `expand_variables` at the marker found at index `v`
(expand.cpp lines 741-907): name scan and empty-name error, history/environment
lookup (`history` resolved only on the main thread; a name equal to the single
`VARIABLE_EXPAND_EMPTY` character skips the lookup), slice parsing against the
effective value count (1 when the variable is missing), then the
missing/present and single/normal cases.  `env` is the external environment
store and `hist` the history store (the result of `reader_get_history`). -/
def evStepAt (env : List Xchar → Option (List (List Char))) (hist : Option (List (List Char)))
    (isMain : Bool) (instr : List Xchar) (v : Nat) (isSingle : Bool) : Except ExpandError EvNext :=
  let nameLen := scan_var_name (instr.drop (v + 1))
  if nameLen = 0 then .error .syntaxErr
  else
    let var_name := var_name_of instr v
    let hVal : Option (List (List Char)) :=
      if var_name = lits "history" then (if isMain then hist else none) else none
    let var : Option (List (List Char)) :=
      if var_name = lits "history" then none
      else if var_name ≠ [Xchar.variableExpandEmpty] then env var_name
      else none
    let count : Nat :=
      match var with
      | some l => l.length
      | none => match hVal with
        | some h => h.length
        | none => 1
    match slice_info instr (name_stop_of instr v) count with
    | .error _ => .error .syntaxErr
    | .ok (sliceIdxs, stop2) =>
      match var, hVal with
      | none, none =>
        if !isSingle then .ok (.finished [])
        else .ok (.recurse [missing_single_res instr v stop2])
      | _, _ =>
        let items : List (List Char) :=
          match sliceIdxs with
          | none =>
            (match hVal with
             | some h => h
             | none => var.getD [])
          | some idxs =>
            match hVal with
            | some h => history_items_at h idxs
            | none => select_var_items (var.getD []) idxs
        if isSingle then .ok (.recurse [single_res instr v stop2 items])
        else if v = 0 ∧ stop2 = instr.length then
          .ok (.finished (items.map (fun it => it.map Xchar.lit)))
        else .ok (.recurse (items.map (product_item_res instr v stop2)))

/-- One step of `expand_variables` (expand.cpp lines 714-907): a `last_idx` of
0 or an input without variable markers below `last_idx` is emitted unchanged;
otherwise the step at the rightmost marker runs.  The returned index is the
`last_idx` for the recursive calls (the marker index). -/
def evStep (env : List Xchar → Option (List (List Char))) (hist : Option (List (List Char)))
    (isMain : Bool) (instr : List Xchar) (li : Nat) : Except ExpandError (EvNext × Nat) :=
  if li = 0 then .ok (.finished [instr], 0)
  else
    match findLastVarExpand instr li with
    | none => .ok (.finished [instr], 0)
    | some (v, isSingle) => (evStepAt env hist isMain instr v isSingle).map (fun n => (n, v))

/-- The per-value recursion loop of `expand_variables` (expand.cpp lines
886-905): run `f` on each rewritten string in order, stopping at the first
failure, concatenating the appended outputs. -/
def evLoop (f : List Xchar → Except ExpandError (List (List Xchar))) : List (List Xchar) → Except ExpandError (List (List Xchar))
  | [] => .ok []
  | s :: rest =>
    match f s with
    | .error e => .error e
    | .ok out =>
      match evLoop f rest with
      | .error e => .error e
      | .ok outs => .ok (out ++ outs)

/-- Fuelled interpreter for the self-recursion of `expand_variables`.  Every
recursive call strictly decreases `last_idx`, so fuel equal to the initial
`last_idx` is always sufficient; running out of fuel is unreachable and maps
to an error. -/
def evFuel (env : List Xchar → Option (List (List Char))) (hist : Option (List (List Char)))
    (isMain : Bool) : Nat → List Xchar → Nat → Except ExpandError (List (List Xchar))
  | 0, instr, li =>
    (match evStep env hist isMain instr li with
     | .error e => .error e
     | .ok (.finished out, _) => .ok out
     | .ok (.recurse _, _) => .error .syntaxErr)
  | fuel + 1, instr, li =>
    (match evStep env hist isMain instr li with
     | .error e => .error e
     | .ok (.finished out, _) => .ok out
     | .ok (.recurse nexts, v) => evLoop (fun s => evFuel env hist isMain fuel s v) nexts)

/-- `expand_variables` (expand.cpp lines 714-908): expand all variable
references in `instr` below `last_idx`, right to left.  `.ok` carries the
emitted strings; `.error` models returning false after appending an error. -/
def expand_variables (env : List Xchar → Option (List (List Char))) (hist : Option (List (List Char)))
    (isMain : Bool) (instr : List Xchar) (last_idx : Nat) : Except ExpandError (List (List Xchar)) :=
  evFuel env hist isMain last_idx instr last_idx

/-- An environment with no variables set, for concrete runs. -/
def envNone : List Xchar → Option (List (List Char)) := fun _ => none

example : expand_variables envNone none false (lits "ab") 2 = .ok [lits "ab"] := by decide
example :
    expand_variables envNone none false (Xchar.variableExpand :: lits "foo") 4 = .ok [] := by decide
example :
    expand_variables envNone none false (Xchar.variableExpandSingle :: lits "foo") 4
      = .ok [[]] := by decide
example :
    expand_variables envNone none false [Xchar.variableExpand] 1 = .error .syntaxErr := by decide

/-- An environment with one variable `foo = [x, y]`, for concrete runs. -/
def envFooXY : List Xchar → Option (List (List Char)) := fun n =>
  if n = lits "foo" then some [['x'], ['y']] else none

example :
    expand_variables envFooXY none false (Xchar.variableExpand :: lits "foo") 4
      = .ok [lits "x", lits "y"] := by decide
example :
    expand_variables envFooXY none false (lits "a" ++ Xchar.variableExpand :: lits "foo") 5
      = .ok [lits "a" ++ Xchar.internalSeparator :: lits "x",
             lits "a" ++ Xchar.internalSeparator :: lits "y"] := by decide
example :
    expand_variables envFooXY none false (Xchar.variableExpandSingle :: lits "foo") 4
      = .ok [lits "x y"] := by decide
example :
    expand_variables envFooXY none false (Xchar.variableExpand :: lits "foo[2]") 7
      = .ok [lits "y"] := by decide

/-- The result of `parse_util_locate_cmdsubst` (parse_util.cpp, external):
`-1` for an unbalanced parenthesis, `0` when no substitution is present, `1`
with the positions of the opening and closing parentheses. -/
inductive LocateRes where
  | unbalanced
  | notFound
  | found (pbegin pend : Nat)
deriving DecidableEq

/-- The slice step of `expand_cmdsubst` (expand.cpp lines 1065-1094): when a
`[` follows the closing parenthesis, parse the slice against the line count,
fail on a bad index, and keep the lines at in-range indices, 1-based, in slice
order.  Returns the kept lines and the tail after the slice. -/
def cmdsubst_slice (tail0 : List Xchar) (lines : List (List Char)) : Except Unit (List (List Char) × List Xchar) :=
  match tail0.head? with
  | some (Xchar.lit '[') =>
    (match parse_slice tail0 lines.length with
     | .error _ => .error ()
     | .ok (idxs, consumed) =>
       .ok (idxs.filterMap (fun i =>
              if i > (lines.length : Int) ∨ i < 1 then none
              else lines.get? (i - 1).toNat),
            tail0.drop consumed))
  | _ => .ok (lines, tail0)

/-- `expand_cmdsubst` (expand.cpp lines 1023-1135).  External collaborators
are parameters: `locate` is `parse_util_locate_cmdsubst`, `exec` is
`exec_subshell` returning the output lines together with whether
`proc_get_last_status()` is `STATUS_READ_TOO_MUCH` afterwards (`none` models
the `-1` failure), and `escape` is `escape_string(·, 1)`.  The third state
component threads `proc_get_last_status() == STATUS_READ_TOO_MUCH` through the
recursion; the Boolean result is the C return value, and the completion list
is what was appended to `out_list` (the recursive tail call's own result is
ignored by the code, and appends survive even when the final status check
fails, exactly as in the source). -/
def expand_cmdsubst_model (locate : List Xchar → LocateRes)
    (exec : List Xchar → Option (List (List Char) × Bool))
    (escape : List Char → List Char) : Nat → List Xchar → Bool → Bool × List Completion × Bool
  | 0, _, st => (false, [], st)
  | fuel + 1, input, st =>
    match locate input with
    | .unbalanced => (false, [], st)
    | .notFound => (true, [⟨input, 0⟩], st)
    | .found pb pe =>
      let subcmd := (input.drop (pb + 1)).take (pe - pb - 1)
      match exec subcmd with
      | none => (false, [], st)
      | some (sub_res0, tooMuch) =>
        if tooMuch then (false, [], true)
        else
          match cmdsubst_slice (input.drop (pe + 1)) sub_res0 with
          | .error _ => (false, [], false)
          | .ok (sub_res, tail) =>
            let tr := expand_cmdsubst_model locate exec escape fuel tail false
            let outs := sub_res.flatMap (fun sub_item =>
              tr.2.1.map (fun t =>
                (⟨input.take pb ++ Xchar.internalSeparator ::
                    ((escape sub_item).map Xchar.lit ++ Xchar.internalSeparator :: t.completion),
                  0⟩ : Completion)))
            (!tr.2.2, outs, tr.2.2)

/-- `escape_single_quoted_hack_hack_hack_hack` (expand.cpp lines 1524-1537):
wrap in single quotes, escaping backslashes and single quotes only. -/
def escape_single_quoted_hack_hack_hack_hack (s : List Char) : List Char :=
  '\'' :: (s.flatMap (fun c => if c = '\\' ∨ c = '\'' then ['\\', c] else [c]) ++ ['\''])

/-- The first recognized literal, `exec "$\x7b@\x7d"`. -/
def xdmCmd1 : List Char := ("exec \"$\x7b@\x7d\"").toList

/-- The second recognized literal, `exec "$@"`. -/
def xdmCmd2 : List Char := ("exec \"$@\"").toList

/-- `fish_xdm_login_hack_hack_hack_hack` (expand.cpp lines 1539-1563), with
`argv` of length `argc` and possibly-null entries.  Returns the C return
value and the resulting command list. -/
def fish_xdm_login_hack_hack_hack_hack (cmds : List (List Char)) (argv : List (Option (List Char))) : Bool × List (List Char) :=
  if cmds.length ≠ 1 then (false, cmds)
  else
    let cmd := cmds.head?.getD []
    if cmd = xdmCmd1 ∨ cmd = xdmCmd2 then
      let new_cmd := ("exec").toList ++ (argv.drop 1).flatMap (fun a =>
        match a with
        | some arg => ' ' :: escape_single_quoted_hack_hack_hack_hack arg
        | none => [])
      (true, [new_cmd])
    else (false, cmds)

/-- `remove_internal_separator` (expand.cpp lines 1263-1287): erase all
`INTERNAL_SEPARATOR`s and, when `conv` is set, replace wildcard markers with
their literal characters. -/
def remove_internal_separator_x (s : List Xchar) (conv : Bool) : List Xchar :=
  (s.filter (fun c => c ≠ Xchar.internalSeparator)).map (fun c =>
    if conv then
      match c with
      | Xchar.anyChar => Xchar.lit '?'
      | Xchar.anyString => Xchar.lit '*'
      | Xchar.anyStringRecursive => Xchar.lit '*'
      | c => c
    else c)

/-- Modelled from the spec: `wildcard_has(str, true)` (wildcard.cpp is not
part of this file) — whether an internal wildcard marker (`ANY_CHAR`,
`ANY_STRING`, `ANY_STRING_RECURSIVE`) occurs in the string. -/
def wildcard_has (s : List Xchar) : Bool :=
  s.any (fun c => c = Xchar.anyChar || c = Xchar.anyString || c = Xchar.anyStringRecursive)

/-- Whether the literal character string `p` is a leading run of `s`. -/
def xstartsWith (p : List Char) (s : List Xchar) : Bool :=
  (p.map Xchar.lit).isPrefixOf s

/-- The external collaborators of the wildcard stage: `env_get_pwd_slash`,
`env_get`, `wildcard_expand_string` (returning the match count and the
completions it appends), `path_apply_working_directory`, and the
`std::sort` by `completion_t::is_naturally_less_than`. -/
structure WildcardExterns where
  pwd_slash : List Char
  env_get : List Char → Option (List (List Char))
  wildcard_expand_string : List Xchar → List Char → ExpandFlags → Int × List Completion
  path_apply_working_directory : List Char → List Char → List Char
  sortCompletions : List Completion → List Completion

/-- The per-working-directory loop of the wildcard stage (expand.cpp lines
1430-1441): a positive count upgrades the result to `WILDCARD_MATCH`, a
negative count is a cancellation that stops the loop with `ERROR`. -/
def wc_dir_loop (f : List Char → Int × List Completion) : List (List Char) → ExpandResultCode → List Completion → ExpandResultCode × List Completion
  | [], res, acc => (res, acc)
  | wd :: rest, res, acc =>
    let r := f wd
    if r.1 > 0 then wc_dir_loop f rest .wildcardMatch (acc ++ r.2)
    else if r.1 < 0 then (.error, acc ++ r.2)
    else wc_dir_loop f rest res (acc ++ r.2)

/-- `expand_stage_wildcards` (expand.cpp lines 1364-1454). -/
def expand_stage_wildcards (ext : WildcardExterns) (flags : ExpandFlags) (input : List Xchar) : ExpandResultCode × List Completion :=
  let path_to_expand := remove_internal_separator_x input flags.skipWildcards
  let has_wc := wildcard_has path_to_expand
  if has_wc && flags.executablesOnly then (.ok, [])
  else if (flags.forCompletions && !flags.skipWildcards) || has_wc then
    let working_dir := ext.pwd_slash
    let effective_working_dirs : List (List Char) :=
      if !flags.specialForCd && !flags.specialForCommand then [working_dir]
      else if xstartsWith ['/'] path_to_expand || xstartsWith ['.', '/'] path_to_expand ||
          xstartsWith ['.', '.', '/'] path_to_expand ||
          (flags.specialForCommand && path_to_expand.contains (Xchar.lit '/')) then
        [working_dir]
      else
        let nm : List Char := if flags.specialForCd then ("CDPATH").toList else ("PATH").toList
        let fb : List Char := if flags.specialForCd then ['.'] else []
        let paths : List (List Char) :=
          match ext.env_get nm with
          | none => [fb]
          | some l => if l = [] ∨ l = [[]] then [fb] else l
        paths.map (fun p => ext.path_apply_working_directory p working_dir)
    let lr := wc_dir_loop (fun wd => ext.wildcard_expand_string path_to_expand wd flags)
      effective_working_dirs .wildcardNoMatch []
    (lr.1, ext.sortCompletions lr.2)
  else
    (.ok, if !flags.forCompletions then [⟨path_to_expand, 0⟩] else [])

/-- Spec-side formulation of negative-index conversion: negative `k` becomes
`size + k + 1`, a non-negative index stands unchanged. -/
def sliceIndexSpec (size k : Int) : Int :=
  if k < 0 then size + k + 1 else k

/-- Spec-side formulation of the range-clamping policy, on endpoints that are
already converted: if both endpoints exceed the size the range contributes no
indices; otherwise each endpoint is clamped to the size and every index of
the inclusive range between the clamped endpoints appears, ascending when
`a ≤ b` and descending otherwise. -/
def sliceRangeSpec (size a b : Int) : List Int :=
  if a > size ∧ b > size then []
  else
    let ac := min a size
    let bc := min b size
    if a ≤ b then (List.range ((bc - ac).toNat + 1)).map (fun k : Nat => ac + (k : Int))
    else (List.range ((ac - bc).toNat + 1)).map (fun k : Nat => ac - (k : Int))

/-- Spec-side formulation of the single-quoting of one argument: the argument
wrapped in single quotes with every backslash and single-quote character
preceded by a backslash. -/
def xdmQuoteSpec (a : List Char) : List Char :=
  ['\''] ++ a.flatMap (fun c => if c = '\\' ∨ c = '\'' then ['\\', c] else [c]) ++ ['\'']

/-- Spec-side formulation of the rewritten command: `exec` followed, for each
non-null `argv[i]` with `1 ≤ i < argc` in order, by a space and that argument
single-quoted. -/
def xdmNewCmdSpec (argv : List (Option (List Char))) : List Char :=
  ("exec").toList ++ ((argv.drop 1).filterMap id).flatMap (fun a => ' ' :: xdmQuoteSpec a)

/-- A stage that always fails, used to exhibit driver behavior on concrete runs. -/
def errStage : Stage := fun _ => (.error, [⟨[], 0⟩])

/-- A trivial tilde-unexpansion pass for concrete runs. -/
def unexpandId : List Xchar → List Completion → List Completion := fun _ cs => cs

/-- The empty flag set (a plain `expand_string` call). -/
def flagsNone : ExpandFlags :=
  ⟨false, false, false, false, false, false, false, false, false, false⟩

/-- Flag set with only `EXECUTABLES_ONLY`. -/
def flagsExecOnly : ExpandFlags :=
  ⟨false, false, false, false, false, false, true, false, false, false⟩

/-- Trivial wildcard externals for concrete runs. -/
def wcExt0 : WildcardExterns :=
  ⟨[], fun _ => none, fun _ _ _ => (0, []), fun p _ => p, fun cs => cs⟩

/-- A concrete `parse_util_locate_cmdsubst` for runs on `a(b)c`. -/
def locateABC : List Xchar → LocateRes := fun s =>
  if s = lits "a(b)c" then .found 1 3 else .notFound

/-- A concrete subshell executor producing the single line `x`. -/
def execX : List Xchar → Option (List (List Char) × Bool) := fun _ => some ([['x']], false)

/-- A concrete escape function (identity on the sample lines used here). -/
def escapeId : List Char → List Char := fun s => s

theorem expand_is_clean_of_chars (input : List Xchar)
    (h : input = [] ∨
      ((∀ c, input.head? = some c → c ≠ Xchar.lit '~' ∧ c ≠ Xchar.lit '%') ∧
       ∀ ch ∈ UNCLEAN, ¬ Xchar.lit ch ∈ input)) :
    expand_is_clean input = true := by
  rcases h with h | ⟨h1, h2⟩
  · rw [h]; rfl
  · cases input with
    | nil => rfl
    | cons c rest =>
      have hany : (c :: rest).any uncleanChar = false := by
        rw [List.any_eq_false]
        intro x hx
        cases x with
        | lit ch =>
          simp only [uncleanChar]
          intro hcontains
          have hmem : ch ∈ UNCLEAN := by
            simpa using hcontains
          exact h2 ch hmem hx
        | internalSeparator => simp [uncleanChar]
        | variableExpand => simp [uncleanChar]
        | variableExpandSingle => simp [uncleanChar]
        | variableExpandEmpty => simp [uncleanChar]
        | processExpand => simp [uncleanChar]
        | homeDirectory => simp [uncleanChar]
        | bracketBegin => simp [uncleanChar]
        | bracketEnd => simp [uncleanChar]
        | bracketSep => simp [uncleanChar]
        | anyChar => simp [uncleanChar]
        | anyString => simp [uncleanChar]
        | anyStringRecursive => simp [uncleanChar]
      cases c with
      | lit ch =>
        have hc := h1 (Xchar.lit ch) rfl
        have ht : ch ≠ '~' := fun he => hc.1 (by rw [he])
        have hp : ch ≠ '%' := fun he => hc.2 (by rw [he])
        have hfirst : ch ∉ UNCLEAN_FIRST := by simp [UNCLEAN_FIRST, ht, hp]
        simp [expand_is_clean, hfirst, hany]
      | internalSeparator => simp [expand_is_clean, hany]
      | variableExpand => simp [expand_is_clean, hany]
      | variableExpandSingle => simp [expand_is_clean, hany]
      | variableExpandEmpty => simp [expand_is_clean, hany]
      | processExpand => simp [expand_is_clean, hany]
      | homeDirectory => simp [expand_is_clean, hany]
      | bracketBegin => simp [expand_is_clean, hany]
      | bracketEnd => simp [expand_is_clean, hany]
      | bracketSep => simp [expand_is_clean, hany]
      | anyChar => simp [expand_is_clean, hany]
      | anyString => simp [expand_is_clean, hany]
      | anyStringRecursive => simp [expand_is_clean, hany]

/-- C3: for every clean input string — empty, or with first character not in
`{~, %}` and containing none of `$ * ? \ " ' ( ) \x7b \x7d` — `expand_string`
called without the completions flag returns `OK` and appends exactly one
completion equal to the input, unchanged, without running any pipeline stage
(the result does not depend on the stage list at all). -/
theorem clean_input_fast_path (stages : List Stage)
    (unexpand : List Xchar → List Completion → List Completion)
    (flags : ExpandFlags) (input : List Xchar)
    (hnc : flags.forCompletions = false)
    (hclean : input = [] ∨
      ((∀ c, input.head? = some c → c ≠ Xchar.lit '~' ∧ c ≠ Xchar.lit '%') ∧
       ∀ ch ∈ UNCLEAN, ¬ Xchar.lit ch ∈ input)) :
    expand_string_model stages unexpand flags input = (.ok, [⟨input, 0⟩]) := by
  have hc := expand_is_clean_of_chars input hclean
  simp [expand_string_model, hnc, hc]

/-- Witness for C3: the fast path fires even when every stage in the pipeline
would fail, showing no stage runs. -/
theorem clean_input_fast_path_witness :
    expand_string_model [errStage] unexpandId flagsNone (lits "abc")
      = (.ok, [⟨lits "abc", 0⟩]) :=
  clean_input_fast_path [errStage] unexpandId flagsNone (lits "abc") rfl
    (Or.inr (by decide))

/-- C6: the driver's status aggregation never downgrades `WILDCARD_MATCH` to
`WILDCARD_NO_MATCH`: a stage result of `WILDCARD_NO_MATCH` while the running
result is `WILDCARD_MATCH` leaves it `WILDCARD_MATCH`; every other stage
result replaces the running result; and from `WILDCARD_MATCH` the running
result never becomes `WILDCARD_NO_MATCH` in one step. -/
theorem wildcard_match_not_downgraded (total r : ExpandResultCode) :
    (total = .wildcardMatch → r = .wildcardNoMatch →
      update_total_result total r = .wildcardMatch)
    ∧ (¬(r = .wildcardNoMatch ∧ total = .wildcardMatch) → update_total_result total r = r)
    ∧ (total = .wildcardMatch → update_total_result total r ≠ .wildcardNoMatch) := by
  cases total <;> cases r <;> simp [update_total_result]

/-- Witness for C6. -/
theorem wildcard_match_not_downgraded_witness :
    update_total_result .wildcardMatch .wildcardNoMatch = .wildcardMatch :=
  (wildcard_match_not_downgraded .wildcardMatch .wildcardNoMatch).1 rfl rfl

/-- C7: a stage returning `ERROR` makes the running result `ERROR`, after
which no completion and no later stage is processed, and `expand_string`
returns `ERROR` having appended nothing to the caller's output list. -/
theorem stage_error_halts_pipeline :
    (∀ (stages : List Stage) (unexpand : List Xchar → List Completion → List Completion)
       (flags : ExpandFlags) (input : List Xchar),
       (expand_string_model stages unexpand flags input).1 = .error →
       (expand_string_model stages unexpand flags input).2 = [])
    ∧ (∀ t, update_total_result t .error = .error)
    ∧ (∀ (stages : List Stage) (comps : List Completion),
        run_stages stages comps .error = (.error, comps))
    ∧ (∀ (s : Stage) (comps acc : List Completion),
        run_stage_comps s comps .error acc = (.error, acc)) := by
  refine ⟨?_, ?_, ?_, ?_⟩
  · intro stages unexpand flags input h
    simp only [expand_string_model] at h ⊢
    by_cases hfast : (!flags.forCompletions && expand_is_clean input) = true
    · rw [if_pos hfast] at h
      simp at h
    · rw [if_neg hfast] at h ⊢
      by_cases herr : (run_stages stages [⟨input, 0⟩] ExpandResultCode.ok).1 = ExpandResultCode.error
      · rw [if_neg (not_not_intro herr)]
      · rw [if_pos herr] at h
        exact absurd h herr
  · intro t; cases t <;> simp [update_total_result]
  · intro stages comps; cases stages <;> simp [run_stages]
  · intro s comps acc; cases comps <;> simp [run_stage_comps]

/-- Witness for C7: a concrete pipeline whose only stage fails. -/
theorem stage_error_halts_pipeline_witness :
    (expand_string_model [errStage] unexpandId flagsNone (lits "$a")).2 = [] :=
  stage_error_halts_pipeline.1 [errStage] unexpandId flagsNone (lits "$a") (by decide)

/-- C10: a candidate that still contains a wildcard marker when
`EXECUTABLES_ONLY` is set is silently dropped by the wildcard stage — no
completions are appended and `OK` is returned — with no constraint on the
completion mode. -/
theorem executables_only_drops_wildcards (ext : WildcardExterns) (flags : ExpandFlags)
    (input : List Xchar)
    (hwild : wildcard_has (remove_internal_separator_x input flags.skipWildcards) = true)
    (hexec : flags.executablesOnly = true) :
    expand_stage_wildcards ext flags input = (.ok, []) := by
  simp [expand_stage_wildcards, hwild, hexec]

/-- Witness for C10. -/
theorem executables_only_drops_wildcards_witness :
    expand_stage_wildcards wcExt0 flagsExecOnly [Xchar.anyString] = (.ok, []) :=
  executables_only_drops_wildcards wcExt0 flagsExecOnly [Xchar.anyString]
    (by decide) (by decide)

theorem xdm_args_eq (l : List (Option (List Char))) :
    (l.flatMap (fun a =>
      match a with
      | some arg => ' ' :: escape_single_quoted_hack_hack_hack_hack arg
      | none => []))
    = (l.filterMap id).flatMap (fun a => ' ' :: xdmQuoteSpec a) := by
  induction l with
  | nil => rfl
  | cons a t ih =>
    cases a with
    | none => simpa using ih
    | some arg =>
      simp only [List.flatMap_cons, List.filterMap_cons, id]
      rw [ih]
      rfl

/-- C9: `fish_xdm_login_hack` returns true and rewrites the command list if
and only if the list is exactly one element equal to `exec "$\x7b@\x7d"` or
`exec "$@"`; in that case the single element becomes `exec` followed, for each
non-null `argv[i]` with `1 ≤ i < argc` in order, by a space and that argument
single-quoted with backslash and single-quote escaped; otherwise it returns
false and leaves the list unchanged. -/
theorem xdm_login_hack_rewrites (cmds : List (List Char)) (argv : List (Option (List Char))) :
    (fish_xdm_login_hack_hack_hack_hack cmds argv = (true, [xdmNewCmdSpec argv]) ↔
      cmds = [xdmCmd1] ∨ cmds = [xdmCmd2])
    ∧ (¬(cmds = [xdmCmd1] ∨ cmds = [xdmCmd2]) →
        fish_xdm_login_hack_hack_hack_hack cmds argv = (false, cmds)) := by
  have hnew : ("exec").toList ++ (argv.drop 1).flatMap (fun a =>
      match a with
      | some arg => ' ' :: escape_single_quoted_hack_hack_hack_hack arg
      | none => []) = xdmNewCmdSpec argv := by
    rw [xdm_args_eq]; rfl
  have hsucc : ∀ a : List Char, (a = xdmCmd1 ∨ a = xdmCmd2) →
      fish_xdm_login_hack_hack_hack_hack [a] argv = (true, [xdmNewCmdSpec argv]) := by
    intro a ha
    simp only [fish_xdm_login_hack_hack_hack_hack]
    rw [if_neg (by simp)]
    simp only [List.head?_cons, Option.getD_some]
    rw [if_pos ha, hnew]
  have hfail : ∀ cmds2 : List (List Char), ¬(cmds2 = [xdmCmd1] ∨ cmds2 = [xdmCmd2]) →
      fish_xdm_login_hack_hack_hack_hack cmds2 argv = (false, cmds2) := by
    intro cmds2 hn
    rcases cmds2 with _ | ⟨a, _ | ⟨b, t⟩⟩
    · rfl
    · have ha : ¬(a = xdmCmd1 ∨ a = xdmCmd2) := by
        intro h
        apply hn
        rcases h with h | h
        · exact Or.inl (by rw [h])
        · exact Or.inr (by rw [h])
      simp only [fish_xdm_login_hack_hack_hack_hack]
      rw [if_neg (by simp)]
      simp only [List.head?_cons, Option.getD_some]
      rw [if_neg ha]
    · simp [fish_xdm_login_hack_hack_hack_hack]
  constructor
  · constructor
    · intro h
      by_cases hv : cmds = [xdmCmd1] ∨ cmds = [xdmCmd2]
      · exact hv
      · rw [hfail cmds hv] at h
        simp at h
    · intro hv
      rcases hv with hv | hv
      · rw [hv]
        exact hsucc xdmCmd1 (Or.inl rfl)
      · rw [hv]
        exact hsucc xdmCmd2 (Or.inr rfl)
  · exact hfail cmds

/-- Sample argv: program name, an argument with a quote, a null entry, and an
argument with a backslash. -/
def xdmArgvSample : List (Option (List Char)) :=
  [some (("login").toList), some (("a'b").toList), none, some (("c\\d").toList)]

/-- Witness for C9. -/
theorem xdm_login_hack_rewrites_witness :
    fish_xdm_login_hack_hack_hack_hack [xdmCmd2] xdmArgvSample
      = (true, [xdmNewCmdSpec xdmArgvSample]) :=
  (xdm_login_hack_rewrites [xdmCmd2] xdmArgvSample).1.mpr (Or.inr rfl)

/-- C4: `$v[-k]` with `1 ≤ k ≤ m` selects exactly the element at 1-based
position `m − k + 1` (the k-th from the end): the parsed index `-k` converts
to `m − k + 1` and the selection step keeps exactly that element; and any
single index whose resolved value falls outside `1..m` contributes no element
(and raises no error — `select_var_items` is total). -/
theorem negative_index_from_end (items : List (List Char)) (k : Int)
    (h1 : 1 ≤ k) (h2 : k ≤ (items.length : Int)) :
    select_var_items items [slice_index (items.length : Int) (-k)]
      = (items.get? (items.length - k.toNat)).toList
    ∧ ∀ i : Int, (i < 1 ∨ (items.length : Int) < i) → select_var_items items [i] = [] := by
  constructor
  · have hj : slice_index (items.length : Int) (-k) = (items.length : Int) - k + 1 := by
      unfold slice_index
      rw [if_neg (by omega)]
      ring
    rw [hj]
    simp only [select_var_items, List.filterMap_cons, List.filterMap_nil]
    rw [if_pos (by constructor <;> omega)]
    have hidx : ((items.length : Int) - k + 1 - 1).toNat = items.length - k.toNat := by omega
    rw [hidx]
    cases hg : items.get? (items.length - k.toNat) <;> simp
  · intro i hi
    simp only [select_var_items, List.filterMap_cons, List.filterMap_nil]
    rcases hi with hi | hi
    · rw [if_neg (by omega)]
    · rw [if_neg (by omega)]

/-- Witness for C4: in a 3-element list, index `-2` selects the second
element (the 2nd from the end). -/
theorem negative_index_from_end_witness :
    select_var_items [['a'], ['b'], ['c']] [slice_index 3 (-2)] = [['b']] := by
  have h := (negative_index_from_end [['a'], ['b'], ['c']] 2 (by decide) (by decide)).1
  exact h.trans (by decide)

theorem rangeLoop_asc (d : Nat) : ∀ a : Int,
    rangeLoop (a + (d : Int)) 1 (d + 1) a = (List.range (d + 1)).map (fun k : Nat => a + (k : Int)) := by
  induction d with
  | zero =>
    intro a
    simp only [Nat.cast_zero, add_zero, Nat.zero_add]
    rw [rangeLoop]
    rw [if_pos (by omega)]
    rw [rangeLoop]
    rw [show List.range 1 = [0] from rfl]
    simp
  | succ d ih =>
    intro a
    have harg : a + ((d + 1 : Nat) : Int) = (a + 1) + (d : Int) := by push_cast; ring
    rw [harg]
    rw [rangeLoop]
    rw [if_pos (by omega)]
    rw [ih (a + 1)]
    conv =>
      rhs
      rw [List.range_succ_eq_map]
    simp only [List.map_cons, List.map_map, Nat.cast_zero, add_zero]
    congr 1
    apply List.map_congr_left
    intro k _
    simp only [Function.comp_apply]
    push_cast
    ring

theorem rangeLoop_desc (d : Nat) : ∀ a : Int,
    rangeLoop (a - (d : Int)) (-1) (d + 1) a = (List.range (d + 1)).map (fun k : Nat => a - (k : Int)) := by
  induction d with
  | zero =>
    intro a
    simp only [Nat.cast_zero, sub_zero, Nat.zero_add]
    rw [rangeLoop]
    rw [if_pos (by omega)]
    rw [rangeLoop]
    rw [show List.range 1 = [0] from rfl]
    simp
  | succ d ih =>
    intro a
    have harg : a - ((d + 1 : Nat) : Int) = (a - 1) - (d : Int) := by push_cast; ring
    rw [harg]
    rw [rangeLoop]
    rw [if_pos (by omega)]
    rw [show a + (-1 : Int) = a - 1 from by ring]
    rw [ih (a - 1)]
    conv =>
      rhs
      rw [List.range_succ_eq_map]
    simp only [List.map_cons, List.map_map, Nat.cast_zero, sub_zero]
    congr 1
    apply List.map_congr_left
    intro k _
    simp only [Function.comp_apply]
    push_cast
    ring

theorem rangeLoop_closed_asc (a b : Int) (hab : a ≤ b) :
    rangeLoop b 1 ((b - a).natAbs + 1) a
      = (List.range ((b - a).toNat + 1)).map (fun k : Nat => a + (k : Int)) := by
  obtain ⟨d, hd⟩ : ∃ d : Nat, b = a + (d : Int) := ⟨(b - a).toNat, by omega⟩
  subst hd
  have h1 : (a + (d : Int) - a).natAbs = d := by omega
  have h2 : (a + (d : Int) - a).toNat = d := by omega
  rw [h1, h2]
  exact rangeLoop_asc d a

theorem rangeLoop_closed_desc (a b : Int) (hab : b ≤ a) :
    rangeLoop b (-1) ((b - a).natAbs + 1) a
      = (List.range ((a - b).toNat + 1)).map (fun k : Nat => a - (k : Int)) := by
  obtain ⟨d, hd⟩ : ∃ d : Nat, b = a - (d : Int) := ⟨(a - b).toNat, by omega⟩
  subst hd
  have h1 : (a - (d : Int) - a).natAbs = d := by omega
  have h2 : (a - (a - (d : Int))).toNat = d := by omega
  rw [h1, h2]
  exact rangeLoop_desc d a

theorem slice_range_indices_spec (size i1 i2 : Int) :
    slice_range_indices size i1 i2 = sliceRangeSpec size i1 i2 := by
  unfold slice_range_indices sliceRangeSpec
  by_cases hskip : i1 > size ∧ i2 > size
  · rw [if_pos hskip, if_pos hskip]
  · rw [if_neg hskip, if_neg hskip]
    have hc1 : (if i1 < size then i1 else size) = min i1 size := by split <;> omega
    have hc2 : (if i2 < size then i2 else size) = min i2 size := by split <;> omega
    simp only [hc1, hc2]
    by_cases h12 : i1 ≤ i2
    · rw [if_pos h12]
      rw [if_neg (show ¬ min i2 size < min i1 size by omega)]
      exact rangeLoop_closed_asc (min i1 size) (min i2 size) (by omega)
    · rw [if_neg h12]
      by_cases heq : min i2 size = min i1 size
      · rw [if_neg (show ¬ min i2 size < min i1 size by omega)]
        rw [rangeLoop_closed_asc (min i1 size) (min i2 size) (by omega)]
        have hz : (min i2 size - min i1 size).toNat = 0 := by omega
        have hz2 : (min i1 size - min i2 size).toNat = 0 := by omega
        rw [hz, hz2]
        rw [show List.range 1 = [0] from rfl]
        simp
      · rw [if_pos (show min i2 size < min i1 size by omega)]
        exact rangeLoop_closed_desc (min i1 size) (min i2 size) (by omega)


/-- C1: for every array size and every range token `a..b` in a slice
specification, `parse_slice` applies the policy stated by the spec — after
negative-index conversion, a range whose two endpoints both exceed the size
contributes nothing, otherwise each endpoint is clamped to the size and the
inclusive range between the clamped endpoints is emitted, ascending when
`a ≤ b` and descending otherwise; in particular on a 3-element list `[9..10]`
yields no indices and `[1..10]` yields 1, 2, 3. -/
theorem slice_range_policy :
    (∀ size a b : Int,
      slice_range_indices size (slice_index size a) (slice_index size b)
        = sliceRangeSpec size (sliceIndexSpec size a) (sliceIndexSpec size b))
    ∧ parse_slice (lits "[9..10]") 3 = .ok ([], 7)
    ∧ parse_slice (lits "[1..10]") 3 = .ok ([1, 2, 3], 7) := by
  refine ⟨?_, by decide, by decide⟩
  intro size a b
  have hs : ∀ k : Int, slice_index size k = sliceIndexSpec size k := by
    intro k
    unfold slice_index sliceIndexSpec
    split <;> split <;> omega
  rw [hs a, hs b]
  exact slice_range_indices_spec size (sliceIndexSpec size a) (sliceIndexSpec size b)

theorem length_flatMap_map {α β γ : Type} (l1 : List α) (l2 : List β) (f : α → β → γ) :
    (l1.flatMap (fun a => l2.map (f a))).length = l1.length * l2.length := by
  induction l1 with
  | nil => simp
  | cons a t ih =>
    simp only [List.flatMap_cons, List.length_append, List.length_map, List.length_cons, ih]
    ring

/-- C5: when the command-substitution stage finds the leftmost substitution at
parentheses `pb`, `pe`, the subshell yields lines that the slice step reduces
to `L`, and the tail recursively expands to `T`, the stage emits exactly
`|L| × |T|` results — lines in the outer loop, tails in the inner loop — each
equal to `prefix · INTERNAL_SEPARATOR · escape(line) · INTERNAL_SEPARATOR ·
tail`, where `prefix` is the input before the opening parenthesis. -/
theorem cmdsubst_cartesian_product (locate : List Xchar → LocateRes)
    (exec : List Xchar → Option (List (List Char) × Bool)) (escape : List Char → List Char)
    (fuel : Nat) (input : List Xchar) (st : Bool) (pb pe : Nat)
    (sub_res L : List (List Char)) (tail : List Xchar) (b3 : Bool) (T : List Completion)
    (hloc : locate input = .found pb pe)
    (hexec : exec ((input.drop (pb + 1)).take (pe - pb - 1)) = some (sub_res, false))
    (hslice : cmdsubst_slice (input.drop (pe + 1)) sub_res = .ok (L, tail))
    (htail : expand_cmdsubst_model locate exec escape fuel tail false = (b3, T, false)) :
    expand_cmdsubst_model locate exec escape (fuel + 1) input st
      = (true,
         L.flatMap (fun line =>
           T.map (fun t =>
             (⟨input.take pb ++ Xchar.internalSeparator ::
                 ((escape line).map Xchar.lit ++ Xchar.internalSeparator :: t.completion),
               0⟩ : Completion))),
         false)
    ∧ (expand_cmdsubst_model locate exec escape (fuel + 1) input st).2.1.length
        = L.length * T.length := by
  have hmain : expand_cmdsubst_model locate exec escape (fuel + 1) input st
      = (true,
         L.flatMap (fun line =>
           T.map (fun t =>
             (⟨input.take pb ++ Xchar.internalSeparator ::
                 ((escape line).map Xchar.lit ++ Xchar.internalSeparator :: t.completion),
               0⟩ : Completion))),
         false) := by
    simp only [expand_cmdsubst_model, hloc, hexec, hslice, htail]
    rw [if_neg (by simp)]
    rfl
  refine ⟨hmain, ?_⟩
  rw [hmain]
  exact length_flatMap_map L T _

/-- Witness for C5: `a(b)c` with one output line `x` and tail expansion
`[c]` yields exactly one result of the stated shape. -/
theorem cmdsubst_cartesian_product_witness :
    expand_cmdsubst_model locateABC execX escapeId 2 (lits "a(b)c") false
      = (true,
         [⟨lits "a" ++ Xchar.internalSeparator ::
             (lits "x" ++ Xchar.internalSeparator :: lits "c"), 0⟩],
         false) := by
  have h := (cmdsubst_cartesian_product locateABC execX escapeId 1 (lits "a(b)c") false 1 3
      [['x']] [['x']] (lits "c") true [⟨lits "c", 0⟩]
      (by decide) (by decide) (by decide) (by decide)).1
  exact h.trans (by decide)

theorem findLastVarExpand_lt (instr : List Xchar) :
    ∀ k v s, findLastVarExpand instr k = some (v, s) → v < k := by
  intro k
  induction k with
  | zero =>
    intro v s h
    simp [findLastVarExpand] at h
  | succ k ih =>
    intro v s h
    unfold findLastVarExpand at h
    split at h
    · injection h with h1
      injection h1 with h2 _
      omega
    · injection h with h1
      injection h1 with h2 _
      omega
    · exact Nat.lt_succ_of_lt (ih v s h)

theorem evStep_recurse_lt (env : List Xchar → Option (List (List Char)))
    (hist : Option (List (List Char))) (isMain : Bool) (instr : List Xchar) (li : Nat)
    (nexts : List (List Xchar)) (v : Nat)
    (h : evStep env hist isMain instr li = .ok (.recurse nexts, v)) : v < li := by
  unfold evStep at h
  split at h
  · simp at h
  · split at h
    · simp at h
    · next w s hf =>
      rcases he : evStepAt env hist isMain instr w s with e | n
      · rw [he] at h
        simp [Except.map] at h
      · rw [he] at h
        simp only [Except.map] at h
        injection h with h1
        injection h1 with h2 h3
        cases h3
        cases n with
        | finished out => exact absurd h2 (by simp)
        | recurse ns => exact findLastVarExpand_lt instr li v s hf

theorem evLoop_congr (f g : List Xchar → Except ExpandError (List (List Xchar)))
    (h : ∀ s, f s = g s) : ∀ l, evLoop f l = evLoop g l := by
  intro l
  induction l with
  | nil => rfl
  | cons a t ih =>
    simp only [evLoop]
    rw [h a, ih]

theorem evFuel_mono (env : List Xchar → Option (List (List Char)))
    (hist : Option (List (List Char))) (isMain : Bool) :
    ∀ li f g : Nat, ∀ instr : List Xchar, li ≤ f → li ≤ g →
      evFuel env hist isMain f instr li = evFuel env hist isMain g instr li := by
  intro li
  induction li using Nat.strong_induction_on with
  | _ li ih =>
    intro f g instr hf hg
    rcases hs : evStep env hist isMain instr li with e | p
    · cases f <;> cases g <;> simp [evFuel, hs]
    · rcases p with ⟨n, v⟩
      cases n with
      | finished out => cases f <;> cases g <;> simp [evFuel, hs]
      | recurse nexts =>
        have hv : v < li := evStep_recurse_lt env hist isMain instr li nexts v hs
        obtain ⟨f1, rfl⟩ : ∃ f1, f = f1 + 1 := ⟨f - 1, by omega⟩
        obtain ⟨g1, rfl⟩ : ∃ g1, g = g1 + 1 := ⟨g - 1, by omega⟩
        simp only [evFuel, hs]
        exact evLoop_congr _ _ (fun s => ih v hv f1 g1 s (by omega) (by omega)) nexts

theorem expand_variables_finished (env : List Xchar → Option (List (List Char)))
    (hist : Option (List (List Char))) (isMain : Bool) (instr : List Xchar) (li : Nat)
    (out : List (List Xchar)) (w : Nat)
    (h : evStep env hist isMain instr li = .ok (.finished out, w)) :
    expand_variables env hist isMain instr li = .ok out := by
  unfold expand_variables
  cases li <;> simp [evFuel, h]

theorem expand_variables_from_error (env : List Xchar → Option (List (List Char)))
    (hist : Option (List (List Char))) (isMain : Bool) (instr : List Xchar) (li : Nat)
    (e : ExpandError)
    (h : evStep env hist isMain instr li = .error e) :
    expand_variables env hist isMain instr li = .error e := by
  unfold expand_variables
  cases li <;> simp [evFuel, h]

theorem expand_variables_recurse_one (env : List Xchar → Option (List (List Char)))
    (hist : Option (List (List Char))) (isMain : Bool) (instr : List Xchar) (li : Nat)
    (res : List Xchar) (v : Nat)
    (h : evStep env hist isMain instr li = .ok (.recurse [res], v)) :
    expand_variables env hist isMain instr li = expand_variables env hist isMain res v := by
  have hv : v < li := evStep_recurse_lt env hist isMain instr li [res] v h
  obtain ⟨k, rfl⟩ : ∃ k, li = k + 1 := ⟨li - 1, by omega⟩
  unfold expand_variables
  simp only [evFuel, h]
  have hm : evFuel env hist isMain k res v = evFuel env hist isMain v res v :=
    evFuel_mono env hist isMain v k v res (by omega) (le_refl v)
  simp only [evLoop]
  rw [hm]
  rcases hr : evFuel env hist isMain v res v with e | out
  · rfl
  · simp [evLoop]

theorem evStep_some (env : List Xchar → Option (List (List Char)))
    (hist : Option (List (List Char))) (isMain : Bool) (instr : List Xchar) (li v : Nat)
    (s : Bool) (hli : li ≠ 0) (hf : findLastVarExpand instr li = some (v, s)) :
    evStep env hist isMain instr li
      = (evStepAt env hist isMain instr v s).map (fun n => (n, v)) := by
  unfold evStep
  rw [if_neg hli, hf]

theorem evStepAt_empty_name (env : List Xchar → Option (List (List Char)))
    (hist : Option (List (List Char))) (isMain : Bool) (instr : List Xchar) (v : Nat)
    (isSingle : Bool) (h : scan_var_name (instr.drop (v + 1)) = 0) :
    evStepAt env hist isMain instr v isSingle = .error .syntaxErr := by
  simp [evStepAt, h]

/-- C8: when the rightmost variable marker is followed by an empty variable
name — the next character is neither a valid name character nor
`VARIABLE_EXPAND_EMPTY`, or the marker ends the string — `expand_variables`
appends a syntax error and fails, producing no expansion for that input. -/
theorem empty_var_name_is_error (env : List Xchar → Option (List (List Char)))
    (hist : Option (List (List Char))) (isMain : Bool) (instr : List Xchar) (v : Nat)
    (isSingle : Bool)
    (hfind : findLastVarExpand instr instr.length = some (v, isSingle))
    (hempty : instr.drop (v + 1) = [] ∨
      ∃ c rest, instr.drop (v + 1) = c :: rest ∧ valid_var_name_char_x c = false ∧
        c ≠ Xchar.variableExpandEmpty) :
    expand_variables env hist isMain instr instr.length = .error .syntaxErr := by
  have hscan : scan_var_name (instr.drop (v + 1)) = 0 := by
    rcases hempty with h | ⟨c, rest, hcr, hvv, hne⟩
    · rw [h]
      rfl
    · rw [hcr]
      simp [scan_var_name, hne, hvv]
  have hv : v < instr.length := findLastVarExpand_lt instr instr.length v isSingle hfind
  have hstep : evStep env hist isMain instr instr.length = .error .syntaxErr := by
    rw [evStep_some env hist isMain instr instr.length v isSingle (by omega) hfind,
      evStepAt_empty_name env hist isMain instr v isSingle hscan]
    rfl
  exact expand_variables_from_error env hist isMain instr instr.length .syntaxErr hstep

/-- Witness for C8: a lone `VARIABLE_EXPAND` marker, whose name is empty. -/
theorem empty_var_name_is_error_witness :
    expand_variables envNone none false [Xchar.variableExpand] 1 = .error .syntaxErr := by
  have h := empty_var_name_is_error envNone none false [Xchar.variableExpand] 0 false
    (by decide) (Or.inl (by decide))
  exact h

/-- Counterexample for C2: for the input `VARIABLE_EXPAND_SINGLE`-`foo` with
`foo` unset, the code does not insert a `VARIABLE_EXPAND_EMPTY` marker in
place of the variable reference — the whole reference is removed and the
result is the single empty string, not the string holding the marker that the
claim predicts (the marker is inserted only when the character before the
marker is itself `VARIABLE_EXPAND_SINGLE`). -/
theorem missing_single_counterexample :
    expand_variables envNone none false (Xchar.variableExpandSingle :: lits "foo") 4 = .ok [[]]
    ∧ (Except.ok [[]] : Except ExpandError (List (List Xchar)))
        ≠ .ok [[Xchar.variableExpandEmpty]] := by
  exact ⟨by decide, by decide⟩

/-- C2 (amended): for an input whose rightmost variable marker names a
variable missing from the environment (not the history pseudo-variable, name
nonempty, slice well formed): under `VARIABLE_EXPAND` the branch yields no
output and expansion succeeds; under `VARIABLE_EXPAND_SINGLE` the variable
reference (marker, name and any slice) is removed, a `VARIABLE_EXPAND_EMPTY`
marker is inserted in its place only when the character immediately before
the marker is itself `VARIABLE_EXPAND_SINGLE`, and expansion recurses on the
prefix to the left of the marker. -/
theorem missing_variable_expansion (env : List Xchar → Option (List (List Char)))
    (hist : Option (List (List Char))) (isMain : Bool) (instr : List Xchar) (v : Nat)
    (isSingle : Bool) (sl : Option (List Int)) (stop2 : Nat)
    (hfind : findLastVarExpand instr instr.length = some (v, isSingle))
    (hname : scan_var_name (instr.drop (v + 1)) ≠ 0)
    (hnh : var_name_of instr v ≠ lits "history")
    (henv : env (var_name_of instr v) = none)
    (hsl : slice_info instr (name_stop_of instr v) 1 = .ok (sl, stop2)) :
    (isSingle = false → expand_variables env hist isMain instr instr.length = .ok [])
    ∧ (isSingle = true → expand_variables env hist isMain instr instr.length
        = expand_variables env hist isMain (missing_single_res instr v stop2) v) := by
  have hv : v < instr.length := findLastVarExpand_lt instr instr.length v isSingle hfind
  have hstepAt : evStepAt env hist isMain instr v isSingle =
      (if !isSingle then .ok (.finished [])
       else .ok (.recurse [missing_single_res instr v stop2])) := by
    simp only [evStepAt]
    simp [hname, hnh, henv, hsl]
  constructor
  · intro hs
    subst hs
    have hstep : evStep env hist isMain instr instr.length = .ok (.finished [], v) := by
      rw [evStep_some env hist isMain instr instr.length v false (by omega) hfind, hstepAt]
      rfl
    exact expand_variables_finished env hist isMain instr instr.length [] v hstep
  · intro hs
    subst hs
    have hstep : evStep env hist isMain instr instr.length
        = .ok (.recurse [missing_single_res instr v stop2], v) := by
      rw [evStep_some env hist isMain instr instr.length v true (by omega) hfind, hstepAt]
      rfl
    exact expand_variables_recurse_one env hist isMain instr instr.length
      (missing_single_res instr v stop2) v hstep

/-- Witness for C2 (amended): the single-expansion branch on
`VARIABLE_EXPAND_SINGLE`-`foo` removes the whole reference and recurses on
the empty prefix. -/
theorem missing_variable_expansion_witness :
    expand_variables envNone none false (Xchar.variableExpandSingle :: lits "foo") 4
      = expand_variables envNone none false [] 0 := by
  have h := (missing_variable_expansion envNone none false
      (Xchar.variableExpandSingle :: lits "foo") 0 true none 4
      (by decide) (by decide) (by decide) (by decide) (by decide)).2 rfl
  exact h.trans (by decide)
